import Mathlib

/-!
Shallow embedding of `language_confusion_calculator.py` (class
`LanguageConfusionCalculator`), together with theorems settling the
specification claims about it.

Modelling conventions:
* Python `str` values are embedded as `List Char` (one element per Unicode
  code point, matching Python's `len` and indexing).
* Python floats are embedded as exact rationals (`ℚ`); every numeric
  constant of the source (`0.3`, `0.5`, `0.4`, ...) is the corresponding
  rational.
* The external collaborators (the fasttext statistical predictor, the
  English word list, and the optional Chinese/Japanese segmenters) are
  parameters gathered in an `Env` structure; the code's control flow
  around them is embedded faithfully.
* `calculate_language_confusion` raises `ValueError` for an unsupported
  language; this is embedded as `Except CalcError`.
-/

namespace LCC

/-- Characters for which Python's `str.isspace()` is true (the set used by
`str.strip()` and no-argument `str.split()`). -/
def pyIsSpace (c : Char) : Bool :=
  let n := c.toNat
  (9 ≤ n && n ≤ 13) || (28 ≤ n && n ≤ 31) || n == 32 || n == 133 || n == 160 ||
  n == 0x1680 || (0x2000 ≤ n && n ≤ 0x200a) || n == 0x2028 || n == 0x2029 ||
  n == 0x202f || n == 0x205f || n == 0x3000

/-- Membership in Python's `string.punctuation`, i.e. the 32 ASCII
punctuation characters (codes 33-47, 58-64, 91-96, 123-126). -/
def isAsciiPunct (c : Char) : Bool :=
  let n := c.toNat
  (33 ≤ n && n ≤ 47) || (58 ≤ n && n ≤ 64) || (91 ≤ n && n ≤ 96) || (123 ≤ n && n ≤ 126)

/-- Python `str.strip()`: drop leading and trailing whitespace. -/
def pyStrip (s : List Char) : List Char :=
  ((s.dropWhile pyIsSpace).reverse.dropWhile pyIsSpace).reverse

/-- Python no-argument `str.split()` helper: accumulate a maximal run of
non-whitespace characters (reversed in `acc`). -/
def pySplitWsAux : List Char → List Char → List (List Char)
  | [], acc => if acc.isEmpty then [] else [acc.reverse]
  | c :: rest, acc =>
    if pyIsSpace c then
      if acc.isEmpty then pySplitWsAux rest [] else acc.reverse :: pySplitWsAux rest []
    else pySplitWsAux rest (c :: acc)

/-- Python no-argument `str.split()`: split on whitespace runs, discarding
empty pieces. -/
def pySplitWs (s : List Char) : List (List Char) := pySplitWsAux s []

/-- Helper for Python `str.split(sep)` with a one-character separator,
keeping empty pieces. -/
def splitOnCharAux (sep : Char) : List Char → List Char → List (List Char)
  | [], acc => [acc.reverse]
  | c :: rest, acc =>
    if c == sep then acc.reverse :: splitOnCharAux sep rest []
    else splitOnCharAux sep rest (c :: acc)

/-- Python `response.split("\n")`: split on newline, keeping empty pieces. -/
def splitNl (s : List Char) : List (List Char) := splitOnCharAux (Char.ofNat 10) s []

/-- The marker `"\nQ:"` at which `normalize` truncates
(`text.split('\nQ:')[0]`). -/
def qMarker : List Char := [Char.ofNat 10, Char.ofNat 81, Char.ofNat 58]

/-- Everything before the first occurrence of `pat` (the whole string if
`pat` does not occur): Python `text.split(pat)[0]` for nonempty `pat`. -/
def truncAt (pat : List Char) : List Char → List Char
  | [] => []
  | c :: rest => if pat.isPrefixOf (c :: rest) then [] else c :: truncAt pat rest

/-- The em-dash U+2014, replaced by a space in `normalize`. -/
def emDash : Char := Char.ofNat 0x2014

/-- The Arabic comma U+060C, deleted by `normalize`. -/
def arabicComma : Char := Char.ofNat 0x060c

/-- Embedding of `LanguageConfusionCalculator.normalize`:
`text.split('\nQ:')[0].strip()`, then delete `string.punctuation`
characters, then replace the em-dash with a space, then delete the Arabic
comma. -/
def normalize (text : List Char) : List Char :=
  (((pyStrip (truncAt qMarker text)).filter (fun c => !isAsciiPunct c)).map
      (fun c => if c == emDash then Char.ofNat 32 else c)).filter
    (fun c => !(c == arabicComma))

/-- The keys of `LANGUAGE_PATTERNS` in their (insertion-order) iteration
order, which is also the iteration order used by `detect_language_characters`. -/
def langOrder : List String := ["ko", "zh", "ja", "en", "es", "fr", "de", "it", "pt"]

/-- The keys of `SUPPORTED_LANGUAGES` in insertion order. -/
def supportedCodes : List String := ["ko", "en", "zh", "ja", "es", "fr", "de", "it", "pt"]

/-- Membership of a code in the tuple `('ko', 'zh', 'ja')` used throughout
the source for the CJK-only logic. -/
def isCJK (l : String) : Bool := l == "ko" || l == "zh" || l == "ja"

/-- Closed nat interval test, for the regex character ranges. -/
def inRange (n lo hi : Nat) : Bool := lo ≤ n && n ≤ hi

/-- The base Latin letters `a-zA-Z` shared by all Latin-script patterns. -/
def latinBase (n : Nat) : Bool := inRange n 97 122 || inRange n 65 90

/-- Code points of the accented letters in the `es` pattern. -/
def esExtra : List Nat :=
  [0xe1, 0xe9, 0xed, 0xf3, 0xfa, 0xf1, 0xfc, 0xc1, 0xc9, 0xcd, 0xd3, 0xda, 0xd1, 0xdc]

/-- Code points of the accented letters in the `fr` pattern. -/
def frExtra : List Nat :=
  [0xe0, 0xe2, 0xe4, 0xe9, 0xe8, 0xea, 0xeb, 0xef, 0xee, 0xf4, 0xf6, 0xf9, 0xfb, 0xfc,
   0xff, 0xe7, 0xc0, 0xc2, 0xc4, 0xc9, 0xc8, 0xca, 0xcb, 0xcf, 0xce, 0xd4, 0xd6, 0xd9,
   0xdb, 0xdc, 0x178, 0xc7]

/-- Code points of the accented letters in the `de` pattern. -/
def deExtra : List Nat := [0xe4, 0xf6, 0xfc, 0xdf, 0xc4, 0xd6, 0xdc]

/-- Code points of the accented letters in the `it` pattern. -/
def itExtra : List Nat :=
  [0xe0, 0xe8, 0xe9, 0xec, 0xed, 0xee, 0xf2, 0xf3, 0xf9,
   0xc0, 0xc8, 0xc9, 0xcc, 0xcd, 0xce, 0xd2, 0xd3, 0xd9]

/-- Code points of the accented letters in the `pt` pattern. -/
def ptExtra : List Nat :=
  [0xe0, 0xe1, 0xe2, 0xe3, 0xe7, 0xe9, 0xea, 0xed, 0xf3, 0xf4, 0xf5, 0xfa,
   0xc0, 0xc1, 0xc2, 0xc3, 0xc7, 0xc9, 0xca, 0xcd, 0xd3, 0xd4, 0xd5, 0xda]

/-- Character-membership test of each `LANGUAGE_PATTERNS` regex (each
pattern is a single character class, so `pattern.findall(text)` counts the
characters satisfying this test). -/
def langPattern : String → Char → Bool
  | "ko" => fun c => inRange c.toNat 0xac00 0xd7a3
  | "zh" => fun c => inRange c.toNat 0x4e00 0x9fff
  | "ja" => fun c =>
      inRange c.toNat 0x3040 0x309f || inRange c.toNat 0x30a0 0x30ff ||
      inRange c.toNat 0x4e00 0x9fff
  | "en" => fun c => latinBase c.toNat
  | "es" => fun c => latinBase c.toNat || esExtra.contains c.toNat
  | "fr" => fun c => latinBase c.toNat || frExtra.contains c.toNat
  | "de" => fun c => latinBase c.toNat || deExtra.contains c.toNat
  | "it" => fun c => latinBase c.toNat || itExtra.contains c.toNat
  | "pt" => fun c => latinBase c.toNat || ptExtra.contains c.toNat
  | _ => fun _ => false

/-- The per-language score `len(pattern.findall(text)) / total_chars`
computed inside `detect_language_characters`. -/
def charRatio (l : String) (text : List Char) : ℚ :=
  ((text.filter (langPattern l)).length : ℚ) / (text.length : ℚ)

/-- Embedding of `detect_language_characters`: empty mapping for
whitespace-only text, otherwise the association list (in
`LANGUAGE_PATTERNS` order) of each language's character ratio.  The
source's inner `if total_chars > 0` guard is always true on this branch
because a string with nonempty `strip()` is nonempty. -/
def detect_language_characters (text : List Char) : List (String × ℚ) :=
  if pyStrip text == [] then []
  else langOrder.map (fun l => (l, charRatio l text))

/-- Python `max(items, key=value)` over an association list: the first
entry attaining the maximal value (later entries replace the current best
only when strictly greater). -/
def maxByVal : List (String × ℚ) → Option (String × ℚ)
  | [] => none
  | p :: rest =>
    match maxByVal rest with
    | none => some p
    | some q => if q.2 > p.2 then some q else some p

/-- Python `label.removeprefix('__label__')` applied to the fasttext label. -/
def stripLabel (label : String) : String :=
  if "__label__".isPrefixOf label then label.drop 9 else label

/-- The external collaborators of the calculator, specified only at their
boundary: the statistical predictor `predict(text) -> (label, confidence)`,
the English lexicon `en_words` (a finite set, empty in degraded mode), and
the optional Chinese/Japanese segmenters (`none` when the library is
unavailable and the code falls back to `_simple_tokenize`). -/
structure Env where
  predict : List Char → String × ℚ
  enWords : List (List Char)
  zhSeg : Option (List Char → List (List Char))
  jaSeg : Option (List Char → List (List Char))

/-- Embedding of `_simple_tokenize`: character-level tokens of the stripped
line for `ko`/`zh`/`ja`, whitespace splitting otherwise. -/
def simple_tokenize (line : List Char) (lang : String) : List (List Char) :=
  if lang == "ko" || lang == "zh" || lang == "ja" then
    (pyStrip line).map (fun c => [c])
  else pySplitWs line

/-- Embedding of `tokenize`: `zh`/`ja` use their external segmenter when
available and fall back to `_simple_tokenize` otherwise; `ko` and all other
languages use `_simple_tokenize`. -/
def tokenize (env : Env) (line : List Char) (lang : String) : List (List Char) :=
  if lang == "zh" then
    match env.zhSeg with
    | some f => f line
    | none => simple_tokenize line lang
  else if lang == "ja" then
    match env.jaSeg with
    | some f => f line
    | none => simple_tokenize line lang
  else simple_tokenize line lang

/-- Embedding of `detect_language`: the statistical vote (label stripped of
its `__label__` prefix when confidence exceeds 0.3, else `"unknown"`) is
overridden by the character-ratio argmax when that maximal ratio exceeds
0.5. -/
def detect_language (env : Env) (text : List Char) : String :=
  let pr := env.predict text
  let fasttextLang := if pr.2 > 3/10 then stripLabel pr.1 else "unknown"
  match maxByVal (detect_language_characters text) with
  | some best => if best.2 > 1/2 then best.1 else fasttextLang
  | none => fasttextLang

/-- The metrics dictionary returned by `calculate_language_confusion`. -/
structure Metrics where
  line_accuracy : ℚ
  line_pass_rate : ℚ
  word_pass_rate : Option ℚ
  total_lines : ℕ
  lines_with_errors : ℕ
  lines_with_word_errors : ℕ
  language_confidence : ℚ
deriving DecidableEq

/-- The error raised by `calculate_language_confusion` (`ValueError` for an
unsupported `expected_language`). -/
inductive CalcError
  | invalidLanguage
deriving DecidableEq

/-- Per-line correctness flag: `detect_language(line) == expected_language`. -/
def lineCorrect (env : Env) (e : String) (line : List Char) : Bool :=
  detect_language env line == e

/-- Per-line confidence sample: `char_scores.get(expected_language, 0.0)`. -/
def lineConfidence (e : String) (line : List Char) : ℚ :=
  ((detect_language_characters line).lookup e).getD 0

/-- The word-error test of the aggregation loop:
`self.en_words and expected_language in ('ko','zh','ja') and
any(token.strip() in self.en_words for token in tokens)`. -/
def hasWordErr (env : Env) (e : String) (tokens : List (List Char)) : Bool :=
  !env.enWords.isEmpty && isCJK e &&
    tokens.any (fun t => env.enWords.contains (pyStrip t))

/-- The surviving `(line, tokens)` pairs: every line of the normalized
response is tokenized against the expected language and lines with fewer
than 3 tokens are discarded. -/
def validLines (env : Env) (response : List Char) (e : String) :
    List (List Char × List (List Char)) :=
  ((splitNl (normalize response)).map (fun l => (l, tokenize env l e))).filter
    (fun p => 3 ≤ p.2.length)

/-- The "perfect" default metrics returned when no line survives filtering. -/
def defaultMetrics (e : String) : Metrics :=
  { line_accuracy := 1
    line_pass_rate := 1
    word_pass_rate := if isCJK e then some 1 else none
    total_lines := 0
    lines_with_errors := 0
    lines_with_word_errors := 0
    language_confidence := 1 }

/-- The aggregation over the surviving lines (the main loop and the final
dictionary of `calculate_language_confusion`).  The counters are expressed
as filter lengths: `lines_with_errors` counts incorrect lines and
`lines_with_word_errors` counts correct lines passing the word-error test,
exactly as the `if not line_correct: ... elif ...:` chain does. -/
def mainMetrics (env : Env) (e : String)
    (valid : List (List Char × List (List Char))) : Metrics :=
  let flags : List ℚ := valid.map (fun p => if lineCorrect env e p.1 then 1 else 0)
  let errors : ℕ := (valid.filter (fun p => !lineCorrect env e p.1)).length
  let wordErrors : ℕ :=
    (valid.filter (fun p => lineCorrect env e p.1 && hasWordErr env e p.2)).length
  let confs : List ℚ := valid.map (fun p => lineConfidence e p.1)
  let total : ℕ := valid.length
  { line_accuracy := if flags.isEmpty then 1 else flags.sum / (flags.length : ℚ)
    line_pass_rate := 1 - (errors : ℚ) / max 1 (total : ℚ)
    word_pass_rate :=
      if isCJK e then some (1 - (wordErrors : ℚ) / max 1 ((total : ℚ) - (errors : ℚ)))
      else none
    total_lines := total
    lines_with_errors := errors
    lines_with_word_errors := wordErrors
    language_confidence := if confs.isEmpty then 1 else confs.sum / (confs.length : ℚ) }

/-- Embedding of `calculate_language_confusion`: reject unsupported codes,
normalize and split the response, filter out short lines, and return the
default metrics or the aggregated metrics. -/
def calculate_language_confusion (env : Env) (response : List Char) (e : String) :
    Except CalcError Metrics :=
  if !supportedCodes.contains e then .error CalcError.invalidLanguage
  else if (validLines env response e).isEmpty then .ok (defaultMetrics e)
  else .ok (mainMetrics env e (validLines env response e))

/-- The weight vector `(line_accuracy, language_confidence, line_pass_rate,
word_pass_rate)` of `calculate_comprehensive_score` after the non-CJK /
null-`word_pass_rate` redistribution. -/
def compWeights (m : Metrics) (e : String) : ℚ × ℚ × ℚ × ℚ :=
  if !isCJK e || m.word_pass_rate == none then
    (2/5 + (1/10) * (3/5), 3/10 + (1/10) * (2/5), 1/5, 0)
  else (2/5, 3/10, 1/5, 1/10)

/-- Embedding of `calculate_comprehensive_score`: the weighted sum of the
confusion-direction component scores. -/
def calculate_comprehensive_score (m : Metrics) (e : String) : ℚ :=
  (1 - m.line_accuracy) * (compWeights m e).1 +
  (1 - m.language_confidence) * (compWeights m e).2.1 +
  (1 - m.line_pass_rate) * (compWeights m e).2.2.1 +
  (match m.word_pass_rate with
   | none => 0
   | some x => 1 - x) * (compWeights m e).2.2.2

/-- The list of applicable component scores used by the simple and max
comprehensive scores. -/
def compScores (m : Metrics) : List ℚ :=
  let base := [1 - m.line_accuracy, 1 - m.language_confidence, 1 - m.line_pass_rate]
  match m.word_pass_rate with
  | none => base
  | some x => base ++ [1 - x]

/-- Embedding of `calculate_simple_comprehensive_score`: the arithmetic mean
of the applicable component scores. -/
def calculate_simple_comprehensive_score (m : Metrics) : ℚ :=
  (compScores m).sum / ((compScores m).length : ℚ)

/-- Embedding of `calculate_max_comprehensive_score`: Python `max` of the
(nonempty) applicable component scores. -/
def calculate_max_comprehensive_score (m : Metrics) : ℚ :=
  match compScores m with
  | [] => 0
  | a :: rest => rest.foldl max a

instance : DecidableEq (Except CalcError Metrics) := fun
  | .error a, .error b =>
    match decEq a b with
    | isTrue h => isTrue (by rw [h])
    | isFalse h => isFalse (fun hc => h (by injection hc))
  | .error _, .ok _ => isFalse (fun hc => Except.noConfusion hc)
  | .ok _, .error _ => isFalse (fun hc => Except.noConfusion hc)
  | .ok a, .ok b =>
    match decEq a b with
    | isTrue h => isTrue (by rw [h])
    | isFalse h => isFalse (fun hc => h (by injection hc))

/-! ## Concrete fixtures used by the witness theorems -/

/-- A concrete environment: a predictor that always answers
`('__label__en', 0.9)`, an empty English lexicon, and no external
segmenters (the degraded mode the code falls back to). -/
def trivEnv : Env :=
  { predict := fun _ => ("__label__en", 9/10), enWords := [], zhSeg := none, jaSeg := none }

/-- A concrete environment whose predictor answers with low confidence
`('__label__en', 0.2)`. -/
def lowConfEnv : Env :=
  { predict := fun _ => ("__label__en", 1/5), enWords := [], zhSeg := none, jaSeg := none }

/-- The Hangul syllable U+AC00, matched by the `ko` pattern only. -/
def koChar : Char := Char.ofNat 0xac00

/-- A three-character Korean line (U+AC00 three times): after `ko`
(character-level) tokenization it has exactly 3 tokens, so it survives the
minimum-token filter. -/
def koLine : List Char := [koChar, koChar, koChar]

/-- The metrics record produced for the response `koLine` with expected
language `ko` under `trivEnv`: one surviving, correctly classified line. -/
def mainMetricsW : Metrics :=
  { line_accuracy := 1
    line_pass_rate := 1
    word_pass_rate := some 1
    total_lines := 1
    lines_with_errors := 0
    lines_with_word_errors := 0
    language_confidence := 1 }

/-- A metrics record identical to `mainMetricsW` except for a strictly
lower `line_accuracy`. -/
def lowerAccMetrics : Metrics := { mainMetricsW with line_accuracy := 1/2 }

/-- The counterexample input `"( a )"` for claim C2. -/
def c2Input : List Char :=
  [Char.ofNat 40, Char.ofNat 32, Char.ofNat 97, Char.ofNat 32, Char.ofNat 41]

/-- Modelled from the spec (§4.1): the normalization policy as the spec
words it — truncate at the first `"\nQ:"`, trim surrounding whitespace,
then delete every character of the given punctuation category and the
Arabic comma outright while replacing the em-dash with a space.  The
punctuation category is a parameter so that the spec's claimed category
(Unicode punctuation) and the code's actual one (ASCII `string.punctuation`)
can both be instantiated. -/
def normalizeBySpec (punct : Char → Bool) (t : List Char) : List Char :=
  (pyStrip (truncAt qMarker t)).filterMap (fun c =>
    if punct c then none
    else if c == arabicComma then none
    else if c == emDash then some (Char.ofNat 32)
    else some c)

/-- Modelled from the spec and the Unicode character database: a fragment
of the Unicode punctuation category sufficient for the counterexample.  It
extends ASCII punctuation with U+3002 IDEOGRAPHIC FULL STOP, which has
Unicode general category Po (punctuation) but is not in Python's
`string.punctuation`. -/
def isUnicodePunctFrag (c : Char) : Bool := isAsciiPunct c || c.toNat == 0x3002

/-! ## IEEE binary64 model for the float evaluation of the aggregation

The embedding elsewhere uses exact rationals, which is faithful for every
claim whose truth is insensitive to the last-ulp rounding of Python floats
(bounds, formulas evaluated once, monotonicity).  The exact-equality claim
about `line_accuracy` and `line_pass_rate` is the one place where IEEE
rounding matters, so the two aggregation expressions of the source are
additionally modelled in binary64 semantics: every arithmetic operation is
followed by `fl`, correct rounding to the nearest binary64 value (ties to
even, 53-bit significand).  The values arising here lie well inside the
normal range, so sub-normals and overflow need no modelling. -/

/-- Two to an integer power, as a rational. -/
def pow2 : ℤ → ℚ
  | Int.ofNat n => (2 : ℚ) ^ n
  | Int.negSucc n => 1 / (2 : ℚ) ^ (n + 1)

/-- Fuel-driven binary search of the exponent: scales `q` into [1, 2) and
returns the floor of its base-2 logarithm.  The fuel 2200 exceeds the
binary64 exponent range, so it is never exhausted for the magnitudes a
double can carry. -/
def floorLog2Aux : ℕ → ℚ → ℤ → ℤ
  | 0, _, e => e
  | fuel + 1, q, e =>
    if q < 1 then floorLog2Aux fuel (2 * q) (e - 1)
    else if 2 ≤ q then floorLog2Aux fuel (q / 2) (e + 1)
    else e

/-- Floor of the base-2 logarithm of a positive rational. -/
def floorLog2 (q : ℚ) : ℤ := floorLog2Aux 2200 q 0

/-- Round a rational to the nearest integer, ties to even (the IEEE 754
default rounding direction). -/
def roundHalfToEven (m : ℚ) : ℤ :=
  let f : ℤ := ⌊m⌋
  let r : ℚ := m - (f : ℚ)
  if r < 1/2 then f
  else if 1/2 < r then f + 1
  else if f % 2 = 0 then f else f + 1

/-- Correct rounding of a positive rational to 53 significant bits: the
significand is scaled into [2^52, 2^53) and rounded to nearest, ties to
even.  (When rounding carries into 2^53 the result is exactly the next
power of two, which the same expression yields.) -/
def flPos (a : ℚ) : ℚ :=
  let scale : ℤ := 52 - floorLog2 a
  (roundHalfToEven (a * pow2 scale) : ℚ) / pow2 scale

/-- Correct rounding of a rational to the nearest IEEE binary64 value
(normal range). -/
def fl (q : ℚ) : ℚ :=
  if q = 0 then 0 else if q < 0 then -flPos (-q) else flPos q

/-- The `line_accuracy` field of the source
(`sum(line_accuracies) / len(line_accuracies) if line_accuracies else 1.0`)
evaluated in IEEE binary64 arithmetic: Python's `sum` adds the 1.0/0.0
flags left to right starting from 0 with float addition, and the division
by the (exactly converted) integer length is correctly rounded. -/
def line_accuracy_float (env : Env) (e : String)
    (valid : List (List Char × List (List Char))) : ℚ :=
  let flags : List ℚ := valid.map (fun p => if lineCorrect env e p.1 then 1 else 0)
  if flags.isEmpty then 1
  else fl ((flags.foldl (fun acc x => fl (acc + x)) 0) / (flags.length : ℚ))

/-- The `line_pass_rate` field of the source
(`1 - lines_with_errors / max(1, total_lines)`) evaluated in IEEE binary64
arithmetic: the integer division is converted to a correctly rounded
double, and the subtraction from 1.0 is correctly rounded. -/
def line_pass_rate_float (env : Env) (e : String)
    (valid : List (List Char × List (List Char))) : ℚ :=
  let errors : ℕ := (valid.filter (fun p => !lineCorrect env e p.1)).length
  fl (1 - fl ((errors : ℚ) / max 1 ((valid.length : ℚ))))

/-- A response of three surviving lines — `"가가가"`, `"abc"`, `"abc"` —
scored against `ko`: the Korean line is classified correctly and the two
Latin lines are not, giving 3 total lines with 1 correct. -/
def c10Response : List Char :=
  [koChar, koChar, koChar, Char.ofNat 10, Char.ofNat 97, Char.ofNat 98, Char.ofNat 99,
   Char.ofNat 10, Char.ofNat 97, Char.ofNat 98, Char.ofNat 99]

/-! ## General helper lemmas -/

theorem mem_pyStrip {c : Char} {s : List Char} (h : c ∈ pyStrip s) : c ∈ s := by
  unfold pyStrip at h
  rw [List.mem_reverse] at h
  have h2 := List.Sublist.mem h (List.dropWhile_sublist pyIsSpace)
  rw [List.mem_reverse] at h2
  exact List.Sublist.mem h2 (List.dropWhile_sublist pyIsSpace)

/-- Every character surviving `normalize` is neither ASCII punctuation nor
the em-dash nor the Arabic comma. -/
theorem mem_normalize {c : Char} {x : List Char} (h : c ∈ normalize x) :
    isAsciiPunct c = false ∧ c ≠ emDash ∧ c ≠ arabicComma := by
  unfold normalize at h
  rw [List.mem_filter] at h
  obtain ⟨hmem, har⟩ := h
  rw [List.mem_map] at hmem
  obtain ⟨a, hafil, hac⟩ := hmem
  rw [List.mem_filter] at hafil
  obtain ⟨-, hap⟩ := hafil
  have har' : c ≠ arabicComma := by
    intro hce
    rw [hce] at har
    simp at har
  by_cases hem : a == emDash
  · rw [if_pos hem] at hac
    refine ⟨?_, ?_, har'⟩
    · rw [← hac]; decide
    · rw [← hac]; decide
  · rw [if_neg hem] at hac
    subst hac
    refine ⟨?_, ?_, har'⟩
    · simpa using hap
    · simpa using hem

theorem colon_mem_of_qMarker_isPrefixOf {l : List Char}
    (h : qMarker.isPrefixOf l = true) : Char.ofNat 58 ∈ l := by
  match l with
  | [] => simp [qMarker, List.isPrefixOf] at h
  | [a] => simp [qMarker, List.isPrefixOf] at h
  | [a, b] => simp [qMarker, List.isPrefixOf] at h
  | a :: b :: c :: rest =>
    simp [qMarker, List.isPrefixOf] at h
    rw [← h.2.2]
    simp

theorem truncAt_eq_self {l : List Char} (h : Char.ofNat 58 ∉ l) :
    truncAt qMarker l = l := by
  induction l with
  | nil => rfl
  | cons c rest ih =>
    rw [truncAt, if_neg, ih (fun hm => h (List.mem_cons_of_mem _ hm))]
    intro hpre
    exact h (colon_mem_of_qMarker_isPrefixOf hpre)

/-! ## Claim C2: idempotence of normalize -/

/-- C2 counterexample: `normalize` is not idempotent.  On `"( a )"` the
first application strips the parentheses only after the surrounding
whitespace was trimmed, leaving `" a "`, and a second application trims the
newly exposed whitespace to `"a"`. -/
theorem claim_C2_counterexample :
    normalize (normalize c2Input) ≠ normalize c2Input := by decide

/-- C2 (amended): `normalize` is idempotent up to whitespace trimming:
a second application of `normalize` only strips the leading and trailing
whitespace of the first application's result (so `normalize` is idempotent
exactly on the inputs whose normalization carries no such whitespace). -/
theorem claim_C2_normalize_idem_up_to_strip (x : List Char) :
    normalize (normalize x) = pyStrip (normalize x) := by
  have hcolon : Char.ofNat 58 ∉ normalize x := fun hc =>
    absurd (mem_normalize hc).1 (by decide)
  conv_lhs => rw [normalize]
  rw [truncAt_eq_self hcolon]
  have h1 : ∀ c ∈ pyStrip (normalize x), (!isAsciiPunct c) = true := fun c hc => by
    rw [(mem_normalize (mem_pyStrip hc)).1]; rfl
  rw [List.filter_eq_self.mpr h1]
  have h2 : (pyStrip (normalize x)).map
      (fun c => if c == emDash then Char.ofNat 32 else c) = pyStrip (normalize x) := by
    have := List.map_congr_left (l := pyStrip (normalize x))
      (f := fun c => if c == emDash then Char.ofNat 32 else c) (g := id)
      (fun a ha => by
        have hne := (mem_normalize (mem_pyStrip ha)).2.1
        simp [hne])
    rw [this, List.map_id]
  rw [h2]
  have h3 : ∀ c ∈ pyStrip (normalize x), (!(c == arabicComma)) = true := fun c hc => by
    have hne := (mem_normalize (mem_pyStrip hc)).2.2
    simp [hne]
  rw [List.filter_eq_self.mpr h3]

/-! ## Claim C6: the character-rewriting policy of normalize -/

/-- C6 counterexample: `normalize` does not delete Unicode punctuation
outside ASCII.  On the one-character text U+3002 (a Unicode Po character)
the claimed policy would delete the character, but the code keeps it. -/
theorem claim_C6_counterexample :
    normalize [Char.ofNat 0x3002] ≠ normalizeBySpec isUnicodePunctFrag [Char.ofNat 0x3002] := by
  decide

theorem filter_map_filter_eq_filterMap (l : List Char) :
    ((l.filter (fun c => !isAsciiPunct c)).map
        (fun c => if c == emDash then Char.ofNat 32 else c)).filter
      (fun c => !(c == arabicComma)) =
    l.filterMap (fun c =>
      if isAsciiPunct c then none
      else if c == arabicComma then none
      else if c == emDash then some (Char.ofNat 32)
      else some c) := by
  induction l with
  | nil => rfl
  | cons c rest ih =>
    by_cases hp : isAsciiPunct c = true
    · simp [List.filter_cons, List.filterMap_cons, hp] at ih ⊢
      exact ih
    · have hp' : isAsciiPunct c = false := by simpa using hp
      by_cases har : c = arabicComma
      · subst har
        have h1 : arabicComma ≠ emDash := by decide
        simp [List.filter_cons, List.filterMap_cons, hp', h1] at ih ⊢
        exact ih
      · by_cases hem : c = emDash
        · subst hem
          have h4 : Char.ofNat 32 ≠ arabicComma := by decide
          have h5 : emDash ≠ arabicComma := by decide
          simp [List.filter_cons, List.filterMap_cons, hp', h4, h5] at ih ⊢
          exact ih
        · simp [List.filter_cons, List.filterMap_cons, hp', hem, har] at ih ⊢
          exact ih

/-- C6 (amended): `normalize` truncates at the first occurrence of a newline
followed by `"Q:"`, trims surrounding whitespace, deletes every character of
Python's ASCII `string.punctuation` (not the full Unicode punctuation
category) and the Arabic comma, and replaces the em-dash with a space. -/
theorem claim_C6_normalize_policy (t : List Char) :
    normalize t = normalizeBySpec isAsciiPunct t := by
  unfold normalize normalizeBySpec
  exact filter_map_filter_eq_filterMap _

/-! ## Claim C1: the two-signal fusion policy of detect_language -/

theorem maxByVal_eq_none {l : List (String × ℚ)} (h : maxByVal l = none) : l = [] := by
  cases l with
  | nil => rfl
  | cons p rest =>
    exfalso
    rw [maxByVal] at h
    rcases hr : maxByVal rest with _ | m <;> rw [hr] at h
    · exact Option.noConfusion h
    · have h' : (if m.2 > p.2 then some m else some p) = none := h
      by_cases hc : m.2 > p.2
      · rw [if_pos hc] at h'; exact Option.noConfusion h'
      · rw [if_neg hc] at h'; exact Option.noConfusion h'

/-- `maxByVal` returns an entry of the list whose value bounds every
entry's value. -/
theorem maxByVal_spec :
    ∀ (l : List (String × ℚ)) (q : String × ℚ), maxByVal l = some q →
      q ∈ l ∧ ∀ p ∈ l, p.2 ≤ q.2 := by
  intro l
  induction l with
  | nil => intro q h; exact absurd h (by rw [maxByVal]; exact Option.noConfusion)
  | cons p rest ih =>
    intro q h
    rw [maxByVal] at h
    rcases hr : maxByVal rest with _ | m <;> rw [hr] at h
    · have hrest := maxByVal_eq_none hr
      subst hrest
      cases h
      refine ⟨List.mem_cons_self _ _, ?_⟩
      intro x hx
      rcases List.mem_cons.mp hx with h1 | h1
      · rw [h1]
      · exact absurd h1 (List.not_mem_nil x)
    · obtain ⟨hm_mem, hm_max⟩ := ih m hr
      have h' : (if m.2 > p.2 then some m else some p) = some q := h
      by_cases hc : m.2 > p.2
      · rw [if_pos hc] at h'
        cases h'
        refine ⟨List.mem_cons_of_mem _ hm_mem, ?_⟩
        intro x hx
        rcases List.mem_cons.mp hx with h1 | h1
        · rw [h1]; exact le_of_lt hc
        · exact hm_max x h1
      · rw [if_neg hc] at h'
        cases h'
        refine ⟨List.mem_cons_self _ _, ?_⟩
        intro x hx
        rcases List.mem_cons.mp hx with h1 | h1
        · rw [h1]
        · exact le_trans (hm_max x h1) (not_lt.mp hc)

/-- C1: for every input text (the statistical predictor's output taken as a
hypothesis through `env`), `detect_language` returns the language with the
(unique) maximum character ratio whenever that ratio exceeds 0.5; otherwise
it returns the statistical predictor's label (stripped of its `__label__`
prefix) when the confidence exceeds 0.3 and the sentinel `"unknown"` when
the confidence is at or below 0.3. -/
theorem claim_C1_detect_language_policy (env : Env) (t : List Char) :
    (∀ l r, (l, r) ∈ detect_language_characters t →
        (∀ p ∈ detect_language_characters t, p.2 ≤ r) →
        (∀ p ∈ detect_language_characters t, p.1 ≠ l → p.2 < r) →
        1/2 < r →
        detect_language env t = l) ∧
    ((∀ p ∈ detect_language_characters t, p.2 ≤ 1/2) →
        detect_language env t =
          if (env.predict t).2 > 3/10 then stripLabel (env.predict t).1 else "unknown") := by
  constructor
  · intro l r hmem hmax hstrict hr
    rcases hq : maxByVal (detect_language_characters t) with _ | q
    · rw [maxByVal_eq_none hq] at hmem
      exact absurd hmem (List.not_mem_nil _)
    · obtain ⟨hq_mem, hq_max⟩ := maxByVal_spec _ _ hq
      have hqr : q.2 = r := le_antisymm (hmax q hq_mem) (hq_max (l, r) hmem)
      have hql : q.1 = l := by
        by_contra hne
        have hlt := hstrict q hq_mem hne
        rw [hqr] at hlt
        exact lt_irrefl r hlt
      simp only [detect_language, hq]
      rw [if_pos (by rw [hqr]; exact hr), hql]
  · intro hle
    rcases hq : maxByVal (detect_language_characters t) with _ | q
    · simp only [detect_language, hq]
    · obtain ⟨hq_mem, -⟩ := maxByVal_spec _ _ hq
      have hn : ¬(q.2 > 1/2) := not_lt.mpr (hle q hq_mem)
      simp only [detect_language, hq]
      rw [if_neg hn]

/-- C1 witness: on the one-character Hangul text the character argmax
(`ko` with ratio 1 > 0.5) overrides the predictor's confident `en` vote,
and on a whitespace-only text (empty character map) the confident
predictor vote `en` is returned. -/
theorem claim_C1_witness :
    detect_language trivEnv [koChar] = "ko" ∧
    detect_language trivEnv [Char.ofNat 32] = "en" := by
  constructor
  · exact (claim_C1_detect_language_policy trivEnv [koChar]).1 "ko" 1
      (by with_unfolding_all decide)
      (by with_unfolding_all decide)
      (by with_unfolding_all decide)
      (by with_unfolding_all decide)
  · have h := (claim_C1_detect_language_policy trivEnv [Char.ofNat 32]).2
      (by with_unfolding_all decide)
    rw [h]
    with_unfolding_all decide

/-! ## Claim C4: the InvalidLanguage error -/

/-- C4: `calculate_language_confusion` fails with the invalid-language
error exactly on expected-language codes outside the 9-code registry, and
returns a metrics record on every code inside it. -/
theorem claim_C4_invalid_language (env : Env) (r : List Char) (e : String) :
    (e ∉ supportedCodes →
      calculate_language_confusion env r e = .error CalcError.invalidLanguage) ∧
    (e ∈ supportedCodes → ∃ m, calculate_language_confusion env r e = .ok m) := by
  constructor
  · intro hnot
    have hc : supportedCodes.contains e = false := by
      cases hcon : supportedCodes.contains e with
      | false => rfl
      | true => exact absurd (List.mem_of_elem_eq_true hcon) hnot
    unfold calculate_language_confusion
    rw [if_pos (by rw [hc]; rfl)]
  · intro hmem
    have hc : supportedCodes.contains e = true := List.elem_eq_true_of_mem hmem
    unfold calculate_language_confusion
    rw [if_neg (by rw [hc]; simp)]
    by_cases hv : (validLines env r e).isEmpty
    · exact ⟨defaultMetrics e, by rw [if_pos hv]⟩
    · exact ⟨mainMetrics env e (validLines env r e), by rw [if_neg hv]⟩

/-- C4 witness: the unsupported code `"xx"` is rejected and the supported
code `"ko"` is not. -/
theorem claim_C4_witness :
    calculate_language_confusion trivEnv [] "xx" = .error CalcError.invalidLanguage ∧
    ∃ m, calculate_language_confusion trivEnv [] "ko" = .ok m := by
  constructor
  · exact (claim_C4_invalid_language trivEnv [] "xx").1 (by decide)
  · exact (claim_C4_invalid_language trivEnv [] "ko").2 (by decide)

/-! ## Claim C3: the perfect default for unscorable responses -/

/-- C3: for every supported expected language, if after normalization and
line splitting no line has at least 3 tokens (which includes the empty
response), `calculate_language_confusion` returns exactly the perfect
default record: accuracies, pass rates and confidence 1.0, all counts 0,
and `word_pass_rate` 1.0 for `ko`/`zh`/`ja` and null otherwise. -/
theorem claim_C3_default_metrics (env : Env) (r : List Char) (e : String)
    (hsup : e ∈ supportedCodes)
    (hshort : ∀ line ∈ splitNl (normalize r), (tokenize env line e).length < 3) :
    calculate_language_confusion env r e =
      .ok { line_accuracy := 1
            line_pass_rate := 1
            word_pass_rate := if e = "ko" ∨ e = "zh" ∨ e = "ja" then some 1 else none
            total_lines := 0
            lines_with_errors := 0
            lines_with_word_errors := 0
            language_confidence := 1 } := by
  have hc : supportedCodes.contains e = true := List.elem_eq_true_of_mem hsup
  have hvalid : validLines env r e = [] := by
    unfold validLines
    rw [List.filter_eq_nil_iff]
    intro p hp
    rw [List.mem_map] at hp
    obtain ⟨l, hl, rfl⟩ := hp
    simp only [decide_eq_true_eq]
    exact not_le.mpr (hshort l hl)
  unfold calculate_language_confusion
  rw [if_neg (by rw [hc]; simp), hvalid]
  simp only [List.isEmpty_nil, if_true]
  simp only [supportedCodes, List.mem_cons, List.not_mem_nil, or_false] at hsup
  rcases hsup with rfl | rfl | rfl | rfl | rfl | rfl | rfl | rfl | rfl <;> rfl

/-- C3 witness: the empty response scored against `ko` yields the perfect
default with `word_pass_rate = 1`. -/
theorem claim_C3_witness :
    calculate_language_confusion trivEnv [] "ko" =
      .ok { line_accuracy := 1
            line_pass_rate := 1
            word_pass_rate := some 1
            total_lines := 0
            lines_with_errors := 0
            lines_with_word_errors := 0
            language_confidence := 1 } := by
  have h := claim_C3_default_metrics trivEnv [] "ko" (by decide)
    (by with_unfolding_all decide)
  rw [h]
  rfl

/-! ## Claim C7: the character-class scorer -/

theorem pyStrip_eq_nil_iff {t : List Char} : pyStrip t = [] ↔ t.all pyIsSpace = true := by
  unfold pyStrip
  rw [List.reverse_eq_nil_iff, List.dropWhile_eq_nil_iff, List.all_eq_true]
  constructor
  · intro h x hx
    have happ := List.takeWhile_append_dropWhile pyIsSpace t
    rw [← happ] at hx
    rcases List.mem_append.mp hx with h1 | h1
    · exact List.mem_takeWhile_imp h1
    · exact h x (List.mem_reverse.mpr h1)
  · intro h x hx
    exact h x (List.Sublist.mem (List.mem_reverse.mp hx) (List.dropWhile_sublist _))

/-- C7: `detect_language_characters` returns the empty mapping exactly for
empty or whitespace-only text; otherwise it assigns to each of the 9
supported languages (in registry order) the count of characters matching
that language's pattern divided by the total character count, each such
ratio lying in [0, 1] with no normalization across languages. -/
theorem claim_C7_character_scores (t : List Char) :
    (t.all pyIsSpace = true → detect_language_characters t = []) ∧
    (t.all pyIsSpace = false →
      detect_language_characters t = langOrder.map (fun l => (l, charRatio l t)) ∧
      ∀ l ∈ langOrder, 0 ≤ charRatio l t ∧ charRatio l t ≤ 1) := by
  constructor
  · intro hall
    unfold detect_language_characters
    rw [if_pos (by rw [pyStrip_eq_nil_iff.mpr hall]; rfl)]
  · intro hnall
    have hne : ¬(pyStrip t == []) = true := by
      intro hb
      rw [pyStrip_eq_nil_iff.mp (by simpa using hb)] at hnall
      exact Bool.true_eq_false ▸ hnall
    constructor
    · unfold detect_language_characters
      rw [if_neg hne]
    · intro l _
      constructor
      · exact div_nonneg (Nat.cast_nonneg _) (Nat.cast_nonneg _)
      · exact div_le_one_of_le₀ (by exact_mod_cast List.length_filter_le _ _)
          (Nat.cast_nonneg _)

/-- C7 witness: a whitespace-only text gets the empty mapping, and a
one-character Hangul text gets the full 9-language ratio mapping. -/
theorem claim_C7_witness :
    detect_language_characters [Char.ofNat 32] = [] ∧
    detect_language_characters [koChar] =
      langOrder.map (fun l => (l, charRatio l [koChar])) := by
  constructor
  · exact (claim_C7_character_scores [Char.ofNat 32]).1 (by decide)
  · exact ((claim_C7_character_scores [koChar]).2 (by decide)).1

/-! ## Counting and summation helper lemmas -/

theorem length_filter_add_length_filter_not {α : Type} (l : List α) (p : α → Bool) :
    (l.filter p).length + (l.filter (fun a => !p a)).length = l.length := by
  induction l with
  | nil => rfl
  | cons c rest ih =>
    rw [List.filter_cons, List.filter_cons]
    by_cases h : p c = true
    · rw [if_pos h, if_neg (by rw [h]; simp)]
      simp only [List.length_cons]
      omega
    · have h' : p c = false := by simpa using h
      rw [if_neg h, if_pos (by rw [h']; rfl)]
      simp only [List.length_cons]
      omega

theorem sum_map_ite_one_zero {α : Type} (l : List α) (p : α → Bool) :
    (l.map (fun a => if p a then (1 : ℚ) else 0)).sum = ((l.filter p).length : ℚ) := by
  induction l with
  | nil => simp
  | cons c rest ih =>
    rw [List.map_cons, List.sum_cons, List.filter_cons]
    by_cases h : p c = true
    · rw [if_pos h, if_pos h, List.length_cons, ih]
      push_cast
      ring
    · rw [if_neg h, if_neg h, ih, zero_add]

theorem length_filter_le_of_imp {α : Type} (l : List α) (p q : α → Bool)
    (h : ∀ a, p a = true → q a = true) :
    (l.filter p).length ≤ (l.filter q).length := by
  induction l with
  | nil => exact le_refl _
  | cons c rest ih =>
    rw [List.filter_cons, List.filter_cons]
    by_cases hp : p c = true
    · rw [if_pos hp, if_pos (h c hp)]
      simp only [List.length_cons]
      omega
    · rw [if_neg hp]
      by_cases hq : q c = true
      · rw [if_pos hq]
        exact le_trans ih (by simp)
      · rw [if_neg hq]
        exact ih

theorem sum_le_length_of_forall_le_one (l : List ℚ) (h : ∀ x ∈ l, x ≤ 1) :
    l.sum ≤ (l.length : ℚ) := by
  induction l with
  | nil => simp
  | cons c rest ih =>
    simp only [List.sum_cons, List.length_cons]
    push_cast
    have h1 := h c (List.mem_cons_self _ _)
    have h2 := ih (fun x hx => h x (List.mem_cons_of_mem _ hx))
    linarith

theorem list_sum_nonneg (l : List ℚ) (h : ∀ x ∈ l, 0 ≤ x) : 0 ≤ l.sum := by
  induction l with
  | nil => simp
  | cons c rest ih =>
    simp only [List.sum_cons]
    have h1 := h c (List.mem_cons_self _ _)
    have h2 := ih (fun x hx => h x (List.mem_cons_of_mem _ hx))
    linarith

theorem lookup_mem : ∀ {l : List (String × ℚ)} {k : String} {v : ℚ},
    l.lookup k = some v → (k, v) ∈ l := by
  intro l
  induction l with
  | nil => intro k v h; simp [List.lookup] at h
  | cons p rest ih =>
    intro k v h
    obtain ⟨a, b⟩ := p
    rw [List.lookup] at h
    cases hb : (k == a) with
    | true =>
      rw [hb] at h
      have hbv : b = v := by injection h
      have hak : k = a := by simpa using hb
      rw [hak, ← hbv]
      exact List.mem_cons_self _ _
    | false =>
      rw [hb] at h
      exact List.mem_cons_of_mem _ (ih h)

/-- Every value stored in the character-score mapping lies in [0, 1]. -/
theorem lineConfidence_bounds (e : String) (line : List Char) :
    0 ≤ lineConfidence e line ∧ lineConfidence e line ≤ 1 := by
  unfold lineConfidence
  rcases hlk : (detect_language_characters line).lookup e with _ | v
  · simp
  · simp only [Option.getD_some]
    have hmem := lookup_mem hlk
    unfold detect_language_characters at hmem
    by_cases hs : (pyStrip line == []) = true
    · rw [if_pos hs] at hmem
      exact absurd hmem (List.not_mem_nil _)
    · rw [if_neg hs] at hmem
      rw [List.mem_map] at hmem
      obtain ⟨l, -, hlv⟩ := hmem
      have hv : v = charRatio l line := ((Prod.mk.injEq _ _ _ _).mp hlv).2.symm
      rw [hv]
      constructor
      · exact div_nonneg (Nat.cast_nonneg _) (Nat.cast_nonneg _)
      · exact div_le_one_of_le₀ (by exact_mod_cast List.length_filter_le _ _)
          (Nat.cast_nonneg _)

/-! ## Claim C10: line_accuracy versus line_pass_rate -/

/-- C10 counterexample: the claimed exact equality of the two returned
fields fails under the program's IEEE binary64 arithmetic at a reachable
record.  On the response `"가가가\nabc\nabc"` scored against `ko`, all
three lines survive and exactly one is classified correctly, and the two
field expressions evaluate to `float(1/3)` (significand rounded down,
0.3333333333333333) versus `1.0 - float(2/3)` (0.33333333333333337), which
differ by one ulp. -/
theorem claim_C10_counterexample :
    line_accuracy_float trivEnv "ko" (validLines trivEnv c10Response "ko") ≠
    line_pass_rate_float trivEnv "ko" (validLines trivEnv c10Response "ko") := by
  with_unfolding_all decide

/-- C10 (amended): in every metrics record returned by
`calculate_language_confusion` (the statistical predictor's outputs taken
as arbitrary hypotheses through `env`), `line_accuracy` equals
`line_pass_rate` in exact arithmetic — including the no-surviving-lines
default, where both are 1 — the two float fields of the program agreeing
up to IEEE rounding of the two expressions but not always exactly. -/
theorem claim_C10_line_accuracy_eq_pass_rate (env : Env) (r : List Char) (e : String)
    (m : Metrics) (h : calculate_language_confusion env r e = .ok m) :
    m.line_accuracy = m.line_pass_rate := by
  unfold calculate_language_confusion at h
  by_cases hc : (!supportedCodes.contains e) = true
  · rw [if_pos hc] at h; exact Except.noConfusion h
  · rw [if_neg hc] at h
    by_cases hv : (validLines env r e).isEmpty = true
    · rw [if_pos hv] at h
      have hm : defaultMetrics e = m := by injection h
      rw [← hm]
      rfl
    · rw [if_neg hv] at h
      have hm : mainMetrics env e (validLines env r e) = m := by injection h
      rw [← hm]
      have hVne : validLines env r e ≠ [] := by
        intro hnil
        rw [hnil] at hv
        exact hv rfl
      have hn : 0 < (validLines env r e).length := List.length_pos.mpr hVne
      simp only [mainMetrics]
      rw [if_neg (by
        rw [List.isEmpty_iff, List.map_eq_nil_iff]
        exact hVne)]
      rw [sum_map_ite_one_zero, List.length_map]
      have hpart := length_filter_add_length_filter_not (validLines env r e)
        (fun p => lineCorrect env e p.1)
      have hmax : max 1 (((validLines env r e).length : ℚ)) =
          ((validLines env r e).length : ℚ) := by
        apply max_eq_right
        exact_mod_cast hn
      rw [hmax]
      have hnq : (((validLines env r e).length : ℚ)) ≠ 0 := by
        exact_mod_cast Nat.pos_iff_ne_zero.mp hn
      field_simp
      push_cast [← hpart]
      ring

/-- C10 witness: the single-Korean-line response yields a record (computed
by evaluation) on which the two fields agree. -/
theorem claim_C10_witness :
    mainMetricsW.line_accuracy = mainMetricsW.line_pass_rate :=
  claim_C10_line_accuracy_eq_pass_rate trivEnv koLine "ko" mainMetricsW
    (by with_unfolding_all decide)

/-! ## Claim C5: word_pass_rate nullability and formula -/

theorem isCJK_iff {e : String} : isCJK e = true ↔ e = "ko" ∨ e = "zh" ∨ e = "ja" := by
  unfold isCJK
  simp [Bool.or_eq_true, beq_iff_eq, or_assoc]

theorem ite_some_none_ne_none {c : Bool} {x : ℚ} :
    (if c = true then some x else none) ≠ none ↔ c = true := by
  cases c <;> simp

/-- C5: for every response and supported expected language, the returned
`word_pass_rate` is non-null iff the expected language is one of
`ko`/`zh`/`ja`, and when lines survived filtering it equals
`1 - lines_with_word_errors / max 1 (total_lines - lines_with_errors)`. -/
theorem claim_C5_word_pass_rate (env : Env) (r : List Char) (e : String) (m : Metrics)
    (h : calculate_language_confusion env r e = .ok m) :
    (m.word_pass_rate ≠ none ↔ (e = "ko" ∨ e = "zh" ∨ e = "ja")) ∧
    (0 < m.total_lines → (e = "ko" ∨ e = "zh" ∨ e = "ja") →
      m.word_pass_rate = some (1 - (m.lines_with_word_errors : ℚ) /
        max 1 ((m.total_lines : ℚ) - (m.lines_with_errors : ℚ)))) := by
  unfold calculate_language_confusion at h
  by_cases hc : (!supportedCodes.contains e) = true
  · rw [if_pos hc] at h; exact Except.noConfusion h
  · rw [if_neg hc] at h
    by_cases hv : (validLines env r e).isEmpty = true
    · rw [if_pos hv] at h
      have hm : defaultMetrics e = m := by injection h
      rw [← hm]
      constructor
      · simp only [defaultMetrics]
        exact ite_some_none_ne_none.trans isCJK_iff
      · intro h0
        simp only [defaultMetrics] at h0
        exact absurd h0 (by norm_num)
    · rw [if_neg hv] at h
      have hm : mainMetrics env e (validLines env r e) = m := by injection h
      rw [← hm]
      constructor
      · simp only [mainMetrics]
        exact ite_some_none_ne_none.trans isCJK_iff
      · intro h0 he
        simp only [mainMetrics]
        rw [if_pos (isCJK_iff.mpr he)]

/-- C5 witness: the record for the single-Korean-line response has a
non-null `word_pass_rate` satisfying the formula. -/
theorem claim_C5_witness :
    mainMetricsW.word_pass_rate ≠ none ∧
    mainMetricsW.word_pass_rate = some (1 - (mainMetricsW.lines_with_word_errors : ℚ) /
      max 1 ((mainMetricsW.total_lines : ℚ) - (mainMetricsW.lines_with_errors : ℚ))) := by
  have h := claim_C5_word_pass_rate trivEnv koLine "ko" mainMetricsW
    (by with_unfolding_all decide)
  exact ⟨h.1.mpr (Or.inl rfl), h.2 (by decide) (Or.inl rfl)⟩

/-! ## Claim C8: all reported rates lie in the unit interval -/

/-- C8: every metrics record returned by `calculate_language_confusion`
satisfies `0 ≤ line_accuracy, line_pass_rate, language_confidence ≤ 1`,
and `0 ≤ word_pass_rate ≤ 1` whenever it is not null. -/
theorem claim_C8_metric_bounds (env : Env) (r : List Char) (e : String) (m : Metrics)
    (h : calculate_language_confusion env r e = .ok m) :
    (0 ≤ m.line_accuracy ∧ m.line_accuracy ≤ 1) ∧
    (0 ≤ m.line_pass_rate ∧ m.line_pass_rate ≤ 1) ∧
    (0 ≤ m.language_confidence ∧ m.language_confidence ≤ 1) ∧
    (∀ w, m.word_pass_rate = some w → 0 ≤ w ∧ w ≤ 1) := by
  unfold calculate_language_confusion at h
  by_cases hc : (!supportedCodes.contains e) = true
  · rw [if_pos hc] at h; exact Except.noConfusion h
  · rw [if_neg hc] at h
    by_cases hv : (validLines env r e).isEmpty = true
    · rw [if_pos hv] at h
      have hm : defaultMetrics e = m := by injection h
      rw [← hm]
      refine ⟨by norm_num [defaultMetrics], by norm_num [defaultMetrics],
        by norm_num [defaultMetrics], ?_⟩
      intro w hw
      simp only [defaultMetrics] at hw
      by_cases hcjk : isCJK e = true
      · rw [if_pos hcjk] at hw
        have h1 : (1 : ℚ) = w := by injection hw
        rw [← h1]
        norm_num
      · rw [if_neg hcjk] at hw
        exact Option.noConfusion hw
    · rw [if_neg hv] at h
      have hm : mainMetrics env e (validLines env r e) = m := by injection h
      rw [← hm]
      have hVne : validLines env r e ≠ [] := by
        intro hnil
        rw [hnil] at hv
        exact hv rfl
      have hn : 0 < (validLines env r e).length := List.length_pos.mpr hVne
      have hn1 : (1 : ℚ) ≤ ((validLines env r e).length : ℚ) := by exact_mod_cast hn
      have hmax : max 1 (((validLines env r e).length : ℚ)) =
          ((validLines env r e).length : ℚ) := max_eq_right hn1
      have herrs_le : ((validLines env r e).filter
          (fun p => !lineCorrect env e p.1)).length ≤ (validLines env r e).length :=
        List.length_filter_le _ _
      refine ⟨?_, ?_, ?_, ?_⟩
      · -- line_accuracy bounds
        simp only [mainMetrics]
        rw [if_neg (by
          rw [List.isEmpty_iff, List.map_eq_nil_iff]
          exact hVne)]
        rw [sum_map_ite_one_zero, List.length_map]
        constructor
        · exact div_nonneg (Nat.cast_nonneg _) (Nat.cast_nonneg _)
        · exact div_le_one_of_le₀
            (by exact_mod_cast List.length_filter_le _ _) (Nat.cast_nonneg _)
      · -- line_pass_rate bounds
        simp only [mainMetrics]
        rw [hmax]
        have h1 : (0 : ℚ) ≤ (((validLines env r e).filter
            (fun p => !lineCorrect env e p.1)).length : ℚ) /
            ((validLines env r e).length : ℚ) :=
          div_nonneg (Nat.cast_nonneg _) (Nat.cast_nonneg _)
        have h2 : (((validLines env r e).filter
            (fun p => !lineCorrect env e p.1)).length : ℚ) /
            ((validLines env r e).length : ℚ) ≤ 1 :=
          div_le_one_of_le₀ (by exact_mod_cast herrs_le) (Nat.cast_nonneg _)
        constructor <;> linarith
      · -- language_confidence bounds
        simp only [mainMetrics]
        rw [if_neg (by
          rw [List.isEmpty_iff, List.map_eq_nil_iff]
          exact hVne)]
        have hbnd : ∀ x ∈ (validLines env r e).map (fun p => lineConfidence e p.1),
            0 ≤ x ∧ x ≤ 1 := by
          intro x hx
          rw [List.mem_map] at hx
          obtain ⟨p, -, rfl⟩ := hx
          exact lineConfidence_bounds e p.1
        constructor
        · exact div_nonneg (list_sum_nonneg _ (fun x hx => (hbnd x hx).1))
            (Nat.cast_nonneg _)
        · exact div_le_one_of_le₀
            (sum_le_length_of_forall_le_one _ (fun x hx => (hbnd x hx).2))
            (Nat.cast_nonneg _)
      · -- word_pass_rate bounds
        intro w hw
        simp only [mainMetrics] at hw
        by_cases hcjk : isCJK e = true
        · rw [if_pos hcjk] at hw
          have hweq : 1 - (((validLines env r e).filter
              (fun p => lineCorrect env e p.1 && hasWordErr env e p.2)).length : ℚ) /
              max 1 (((validLines env r e).length : ℚ) -
                (((validLines env r e).filter
                  (fun p => !lineCorrect env e p.1)).length : ℚ)) = w := by
            injection hw
          have hwe_le : ((validLines env r e).filter
              (fun p => lineCorrect env e p.1 && hasWordErr env e p.2)).length ≤
              ((validLines env r e).filter (fun p => lineCorrect env e p.1)).length :=
            length_filter_le_of_imp _ _ _ (fun a ha => by
              rw [Bool.and_eq_true] at ha
              exact ha.1)
          have hpart := length_filter_add_length_filter_not (validLines env r e)
            (fun p => lineCorrect env e p.1)
          have hweD : (((validLines env r e).filter
              (fun p => lineCorrect env e p.1 && hasWordErr env e p.2)).length : ℚ) ≤
              ((validLines env r e).length : ℚ) -
              (((validLines env r e).filter (fun p => !lineCorrect env e p.1)).length : ℚ) := by
            have hnat : ((validLines env r e).filter
                (fun p => lineCorrect env e p.1 && hasWordErr env e p.2)).length +
                ((validLines env r e).filter (fun p => !lineCorrect env e p.1)).length ≤
                (validLines env r e).length := by omega
            have hcast : (((validLines env r e).filter
                (fun p => lineCorrect env e p.1 && hasWordErr env e p.2)).length : ℚ) +
                (((validLines env r e).filter
                  (fun p => !lineCorrect env e p.1)).length : ℚ) ≤
                ((validLines env r e).length : ℚ) := by exact_mod_cast hnat
            linarith
          have hq1 : (0 : ℚ) ≤ (((validLines env r e).filter
              (fun p => lineCorrect env e p.1 && hasWordErr env e p.2)).length : ℚ) /
              max 1 (((validLines env r e).length : ℚ) -
                (((validLines env r e).filter
                  (fun p => !lineCorrect env e p.1)).length : ℚ)) :=
            div_nonneg (Nat.cast_nonneg _) (le_trans zero_le_one (le_max_left _ _))
          have hq2 : (((validLines env r e).filter
              (fun p => lineCorrect env e p.1 && hasWordErr env e p.2)).length : ℚ) /
              max 1 (((validLines env r e).length : ℚ) -
                (((validLines env r e).filter
                  (fun p => !lineCorrect env e p.1)).length : ℚ)) ≤ 1 :=
            div_le_one_of_le₀ (le_trans hweD (le_max_right _ _))
              (le_trans zero_le_one (le_max_left _ _))
          rw [← hweq]
          constructor <;> linarith
        · rw [if_neg hcjk] at hw
          exact Option.noConfusion hw

/-- C8 witness: the record for the single-Korean-line response satisfies
all the unit-interval bounds. -/
theorem claim_C8_witness :
    (0 ≤ mainMetricsW.line_accuracy ∧ mainMetricsW.line_accuracy ≤ 1) ∧
    (0 ≤ mainMetricsW.line_pass_rate ∧ mainMetricsW.line_pass_rate ≤ 1) ∧
    (0 ≤ mainMetricsW.language_confidence ∧ mainMetricsW.language_confidence ≤ 1) ∧
    (∀ w, mainMetricsW.word_pass_rate = some w → 0 ≤ w ∧ w ≤ 1) :=
  claim_C8_metric_bounds trivEnv koLine "ko" mainMetricsW
    (by with_unfolding_all decide)

/-! ## Claim C9: monotonicity of the three comprehensive scores -/

theorem foldl_max_mono_init {a b : ℚ} (l : List ℚ) (h : b ≤ a) :
    l.foldl max b ≤ l.foldl max a := by
  induction l generalizing a b with
  | nil => exact h
  | cons c rest ih => exact ih (max_le_max h (le_refl c))

/-- C9: for two metrics records identical except that one has a strictly
lower `line_accuracy`, each of the three comprehensive scores (weighted for
any fixed supported expected language, simple, and max) on the
lower-accuracy record is at least the score on the other record. -/
theorem claim_C9_score_monotonicity (m1 m2 : Metrics) (e : String)
    (hsup : e ∈ supportedCodes)
    (hlt : m1.line_accuracy < m2.line_accuracy)
    (hlpr : m1.line_pass_rate = m2.line_pass_rate)
    (hwpr : m1.word_pass_rate = m2.word_pass_rate)
    (htot : m1.total_lines = m2.total_lines)
    (herr : m1.lines_with_errors = m2.lines_with_errors)
    (hwerr : m1.lines_with_word_errors = m2.lines_with_word_errors)
    (hlc : m1.language_confidence = m2.language_confidence) :
    calculate_comprehensive_score m2 e ≤ calculate_comprehensive_score m1 e ∧
    calculate_simple_comprehensive_score m2 ≤ calculate_simple_comprehensive_score m1 ∧
    calculate_max_comprehensive_score m2 ≤ calculate_max_comprehensive_score m1 := by
  refine ⟨?_, ?_, ?_⟩
  · unfold calculate_comprehensive_score compWeights
    rw [← hwpr, ← hlpr, ← hlc]
    by_cases hcond : (!isCJK e || m1.word_pass_rate == none) = true
    · rw [if_pos hcond]
      simp only [Prod.fst, Prod.snd]
      linarith
    · rw [if_neg hcond]
      simp only [Prod.fst, Prod.snd]
      linarith
  · unfold calculate_simple_comprehensive_score compScores
    rw [← hwpr, ← hlpr, ← hlc]
    rcases hw : m1.word_pass_rate with _ | x
    · simp only [hw, List.sum_cons, List.sum_nil, List.length_cons, List.length_nil]
      norm_num
      linarith
    · simp only [hw, List.cons_append, List.nil_append, List.sum_cons, List.sum_nil,
        List.length_cons, List.length_nil]
      norm_num
      linarith
  · unfold calculate_max_comprehensive_score compScores
    rw [← hwpr, ← hlpr, ← hlc]
    rcases hw : m1.word_pass_rate with _ | x
    · simp only [hw]
      exact foldl_max_mono_init _ (by linarith)
    · simp only [hw, List.cons_append, List.nil_append]
      exact foldl_max_mono_init _ (by linarith)

/-- C9 witness: lowering `line_accuracy` from 1 to 1/2 on a concrete record
does not decrease any of the three comprehensive scores. -/
theorem claim_C9_witness :
    calculate_comprehensive_score mainMetricsW "ko" ≤
      calculate_comprehensive_score lowerAccMetrics "ko" ∧
    calculate_simple_comprehensive_score mainMetricsW ≤
      calculate_simple_comprehensive_score lowerAccMetrics ∧
    calculate_max_comprehensive_score mainMetricsW ≤
      calculate_max_comprehensive_score lowerAccMetrics :=
  claim_C9_score_monotonicity lowerAccMetrics mainMetricsW "ko"
    (by decide)
    (by with_unfolding_all decide)
    rfl rfl rfl rfl rfl rfl

end LCC
